import Mathlib

/-!
Verification of the credential-encryption module (src/enc.js) and the
PCM-to-WAV framer (src/index.js) of the AI-Voice-Generator repository.

Modelling conventions:
* JS byte buffers (ArrayBuffer / Uint8Array) are `List Nat` with entries < 256.
* JS strings holding binary data or base64 text are `List Char`; plaintext and
  password strings are represented by their UTF-8 byte sequences (`List Nat`),
  so `TextEncoder.encode` / `TextDecoder.decode` are the identity of the model.
* The platform primitives (btoa/atob, crypto.getRandomValues, and the WebCrypto
  PBKDF2 / AES-GCM operations) are not repository code; they are modelled from
  the spec as executable Lean functions, with each modelling choice documented
  on the definition.  The repository functions themselves (`bufToBase64`,
  `base64ToBuf`, `concatBuffers`, `deriveKey`, `encryptApiKey`,
  `decryptApiKey`, `pcmToWav`) are translated line by line from src.
-/

namespace VoiceGen

/-! ## Base64 codec (platform primitives btoa / atob) -/

/-- The standard base64 alphabet used by the platform primitives. -/
def alphabet : List Char :=
  "ABCDEFGHIJKLMNOPQRSTUVWXYZabcdefghijklmnopqrstuvwxyz0123456789+/".data

/-- Character for a 6-bit group. -/
def b64char (n : Nat) : Char := alphabet.getD n '='

/-- Helper: index of a character in a list, counting from `i`. -/
def indexOfAux : List Char → Char → Nat → Option Nat
  | [], _, _ => none
  | a :: rest, c, i => if a = c then some i else indexOfAux rest c (i + 1)

/-- 6-bit value of a base64 character; `none` for characters outside the
alphabet (atob raises InvalidCharacterError on those). -/
def b64val (c : Char) : Option Nat := indexOfAux alphabet c 0

/-- Modelled from the spec: the platform primitive `btoa`, restricted to
binary strings of byte values, producing standard padded base64.  Processes
the input in 3-byte groups, emitting 4 characters per group. -/
def encodeChunks : List Nat → List Char
  | [] => []
  | [a] => [b64char (a / 4), b64char (a % 4 * 16), '=', '=']
  | [a, b] => [b64char (a / 4), b64char (a % 4 * 16 + b / 16), b64char (b % 16 * 4), '=']
  | a :: b :: c :: rest =>
      b64char (a / 4) :: b64char (a % 4 * 16 + b / 16) :: b64char (b % 16 * 4 + c / 64) ::
        b64char (c % 64) :: encodeChunks rest

/-- Modelled from the spec: decoding of one 4-character base64 group, with
`'='` padding handling; `none` on characters outside the alphabet. -/
def decodeChunk4 (c1 c2 c3 c4 : Char) : Option (List Nat) :=
  if c3 = '=' then
    if c4 = '=' then
      match b64val c1, b64val c2 with
      | some v1, some v2 => some [v1 * 4 + v2 / 16]
      | _, _ => none
    else none
  else if c4 = '=' then
    match b64val c1, b64val c2, b64val c3 with
    | some v1, some v2, some v3 => some [v1 * 4 + v2 / 16, v2 % 16 * 16 + v3 / 4]
    | _, _, _ => none
  else
    match b64val c1, b64val c2, b64val c3, b64val c4 with
    | some v1, some v2, some v3, some v4 =>
        some [v1 * 4 + v2 / 16, v2 % 16 * 16 + v3 / 4, v3 % 4 * 64 + v4]
    | _, _, _, _ => none

/-- Modelled from the spec: the platform primitive `atob`; `none` models the
InvalidCharacterError thrown on input that is not valid base64. -/
def decodeChunks : List Char → Option (List Nat)
  | [] => some []
  | c1 :: c2 :: c3 :: c4 :: rest =>
      match decodeChunk4 c1 c2 c3 c4, decodeChunks rest with
      | some bs, some tl => some (bs ++ tl)
      | _, _ => none
  | _ => none

/-- src/enc.js `bufToBase64`: `btoa(String.fromCharCode(...new Uint8Array(buf)))`.
`String.fromCharCode` over bytes is the identity of the byte-list model, so the
function is the base64 encoder applied to the byte list. -/
def bufToBase64 (buf : List Nat) : List Char := encodeChunks buf

/-- src/enc.js `base64ToBuf`: `atob(b64)` followed by a `charCodeAt` loop
(identity in the byte-list model); `none` models the atob throw. -/
def base64ToBuf (b64 : List Char) : Option (List Nat) := decodeChunks b64

/-! ## PCM-to-WAV framer (src/index.js `pcmToWav`) -/

/-- Little-endian bytes written by `DataView.setUint16(_, n, true)`. -/
def u16le (n : Nat) : List Nat := [n % 256, n / 256 % 256]

/-- Little-endian bytes written by `DataView.setUint32(_, n, true)`. -/
def u32le (n : Nat) : List Nat :=
  [n % 256, n / 256 % 256, n / 65536 % 256, n / 16777216 % 256]

/-- src/index.js `writeString`: the char codes of an ASCII tag. -/
def asciiBytes (s : String) : List Nat := s.data.map Char.toNat

/-- src/index.js `pcmToWav`, translated field by field.  The input `pcm16` is
the raw sample buffer viewed as its byte sequence (the source copies it byte
by byte through `DataView.getUint8`), and the returned `Blob` is the byte
sequence of its single backing buffer. -/
def pcmToWav (pcm16 : List Nat) (sampleRate : Nat) : List Nat :=
  let numChannels : Nat := 1
  let bitsPerSample : Nat := 16
  let byteRate := sampleRate * numChannels * (bitsPerSample / 8)
  let blockAlign := numChannels * (bitsPerSample / 8)
  let dataLength := pcm16.length
  asciiBytes "RIFF" ++ (u32le (36 + dataLength) ++ (asciiBytes "WAVE" ++
    (asciiBytes "fmt " ++ (u32le 16 ++ (u16le 1 ++ (u16le numChannels ++
    (u32le sampleRate ++ (u32le byteRate ++ (u16le blockAlign ++
    (u16le bitsPerSample ++ (asciiBytes "data" ++ (u32le dataLength ++ pcm16))))))))))))

/-! ## Credential cipher (src/enc.js) -/

/-- src/enc.js line 2: `const pbkdf2Iterations = 200_000`. -/
def pbkdf2Iterations : Nat := 200000

/-- src/enc.js line 3: `const saltLen = 16`. -/
def saltLen : Nat := 16

/-- src/enc.js line 4: `const ivLen = 12`. -/
def ivLen : Nat := 12

/-- Hash algorithm identifiers passed to the key-derivation primitive. -/
inductive HashAlg where
  | sha256
deriving DecidableEq

/-- Modelled from the spec: the opaque CryptoKey produced by the PBKDF2
`crypto.subtle.deriveKey` call.  PBKDF2 is a platform primitive, so the key is
modelled as the exact tuple of inputs the source supplies to it: the password
bytes, the salt, the fixed iteration count and the fixed hash.  This keeps the
model deterministic in (password, salt) and lets distinct passwords yield
distinct keys (ideal-KDF assumption: no PBKDF2 collisions). -/
structure DerivedKey where
  password : List Nat
  salt : List Nat
  iterations : Nat
  hash : HashAlg
deriving DecidableEq

/-- src/enc.js `deriveKey`: imports the UTF-8 password bytes and derives an
AES-GCM key with PBKDF2, salt `salt`, `pbkdf2Iterations` iterations and
SHA-256. -/
def deriveKey (password salt : List Nat) : DerivedKey :=
  { password := password, salt := salt, iterations := pbkdf2Iterations,
    hash := HashAlg.sha256 }

/-- Length-delimited byte encoding used by the ideal AEAD model: a prefix-free
frame `1^length ++ [0] ++ data`, so that two such frames followed by anything
can only agree when the framed data agree. -/
def unaryEnc (l : List Nat) : List Nat := List.replicate l.length 1 ++ 0 :: l

/-- Modelled from the spec: the portion of an ideal AES-GCM ciphertext that is
determined by the key and nonce alone.  AES-GCM is a platform primitive; the
ideal model makes the ciphertext an injective function of (key, nonce,
plaintext) so that authenticated decryption can check the key and nonce
exactly — the cipher gives no partial-success signal. -/
def aeadHeader (k : DerivedKey) (nonce : List Nat) : List Nat :=
  unaryEnc k.password ++ (unaryEnc k.salt ++ unaryEnc nonce)

/-- Integrity checksum of the ideal AEAD model (stands in for the GCM tag):
a single byte summarising the plaintext, so any single-byte change of the
plaintext portion is detected. -/
def byteSum (l : List Nat) : Nat := l.sum % 256

/-- Modelled from the spec: `crypto.subtle.encrypt` with AES-GCM, as an ideal
authenticated cipher.  The ciphertext (which "includes an authentication tag
appended by the cipher") is the key/nonce-determined header followed by the
plaintext bytes and the integrity byte. -/
def aeadEncrypt (k : DerivedKey) (nonce pt : List Nat) : List Nat :=
  aeadHeader k nonce ++ (pt ++ [byteSum pt])

/-- Modelled from the spec: `crypto.subtle.decrypt` with AES-GCM.  Checks that
the ciphertext was produced under exactly this key and nonce and that the
integrity byte verifies; `none` models the OperationError thrown on any
integrity failure (wrong password, wrong nonce, tampered or truncated data —
indistinguishable by design). -/
def aeadDecrypt (k : DerivedKey) (nonce ct : List Nat) : Option (List Nat) :=
  let pre := aeadHeader k nonce
  if ct.take pre.length = pre ∧ pre.length < ct.length then
    let body := ct.drop pre.length
    if body.getLast? = some (byteSum body.dropLast) then some body.dropLast else none
  else none

/-- Modelled from the spec: `crypto.getRandomValues(new Uint8Array(len))` with
the entropy source made explicit as a stream `rand`; a `Uint8Array` cell holds
its value reduced mod 256. -/
def getRandomValues (rand : Nat → Nat) (len : Nat) : List Nat :=
  (List.range len).map fun i => rand i % 256

/-- src/enc.js `concatBuffers`: copies the buffers into one buffer in order. -/
def concatBuffers (buffers : List (List Nat)) : List Nat :=
  buffers.foldl (fun acc b => acc ++ b) []

/-- src/enc.js `encryptApiKey`: fresh 16-byte salt and 12-byte iv from the
random source, PBKDF2 key from (password, salt), AES-GCM encryption of the
UTF-8 plaintext bytes, and base64 of `salt ‖ iv ‖ ciphertext`.  The two
consumed entropy streams are explicit parameters. -/
def encryptApiKey (apiKey password : List Nat) (saltRand ivRand : Nat → Nat) :
    List Char :=
  let salt := getRandomValues saltRand saltLen
  let iv := getRandomValues ivRand ivLen
  let key := deriveKey password salt
  let ct := aeadEncrypt key iv apiKey
  bufToBase64 (concatBuffers [salt, iv, ct])

/-- The JS exception classes that `decryptApiKey` can propagate:
`invalidCharacter` is the InvalidCharacterError thrown by `atob` on malformed
base64; `operationError` is the OperationError thrown by the WebCrypto AES-GCM
decrypt (the spec's `AuthenticationFailed`).  The source has no error handling
of its own, so these platform exceptions are the only failure signals. -/
inductive DecryptError where
  | invalidCharacter
  | operationError
deriving DecidableEq

/-- src/enc.js `decryptApiKey`: decodes the base64 blob, slices
`combined.slice(0, saltLen)`, `combined.slice(saltLen, saltLen + ivLen)` and
`combined.slice(saltLen + ivLen)`, re-derives the key and attempts
authenticated decryption.  No length validation is performed on the decoded
blob. -/
def decryptApiKey (encryptedBase64 : List Char) (password : List Nat) :
    Except DecryptError (List Nat) :=
  match base64ToBuf encryptedBase64 with
  | none => Except.error DecryptError.invalidCharacter
  | some combined =>
    let salt := combined.take saltLen
    let iv := (combined.drop saltLen).take ivLen
    let ct := combined.drop (saltLen + ivLen)
    match aeadDecrypt (deriveKey password salt) iv ct with
    | none => Except.error DecryptError.operationError
    | some pt => Except.ok pt

/-! ## Base64 helper lemmas -/

theorem b64val_b64char : ∀ v < 64, b64val (b64char v) = some v := by decide

theorem b64char_ne_pad : ∀ v < 64, b64char v ≠ '=' := by decide

theorem decode_encode : ∀ b : List Nat, (∀ x ∈ b, x < 256) →
    decodeChunks (encodeChunks b) = some b
  | [], _ => rfl
  | [a], h => by
      have ha : a < 256 := h a (by simp)
      have h1 : a / 4 < 64 := by omega
      have h2 : a % 4 * 16 < 64 := by omega
      simp [encodeChunks, decodeChunks, decodeChunk4,
        b64val_b64char _ h1, b64val_b64char _ h2]
      omega
  | [a, b], h => by
      have ha : a < 256 := h a (by simp)
      have hb : b < 256 := h b (by simp)
      have h1 : a / 4 < 64 := by omega
      have h2 : a % 4 * 16 + b / 16 < 64 := by omega
      have h3 : b % 16 * 4 < 64 := by omega
      simp [encodeChunks, decodeChunks, decodeChunk4, b64char_ne_pad _ h3,
        b64val_b64char _ h1, b64val_b64char _ h2, b64val_b64char _ h3]
      constructor <;> omega
  | a :: b :: c :: rest, h => by
      have ha : a < 256 := h a (by simp)
      have hb : b < 256 := h b (by simp)
      have hc : c < 256 := h c (by simp)
      have h1 : a / 4 < 64 := by omega
      have h2 : a % 4 * 16 + b / 16 < 64 := by omega
      have h3 : b % 16 * 4 + c / 64 < 64 := by omega
      have h4 : c % 64 < 64 := by omega
      have ih := decode_encode rest (fun x hx => h x (by simp [hx]))
      simp [encodeChunks, decodeChunks, decodeChunk4, b64char_ne_pad _ h3,
        b64char_ne_pad _ h4, b64val_b64char _ h1, b64val_b64char _ h2,
        b64val_b64char _ h3, b64val_b64char _ h4, ih]
      refine ⟨by omega, by omega, by omega⟩

theorem bufToBase64_injOn {b1 b2 : List Nat} (h1 : ∀ x ∈ b1, x < 256)
    (h2 : ∀ x ∈ b2, x < 256) (he : bufToBase64 b1 = bufToBase64 b2) : b1 = b2 := by
  have e1 := decode_encode b1 h1
  have e2 := decode_encode b2 h2
  rw [bufToBase64, bufToBase64] at he
  rw [he, e2] at e1
  exact ((Option.some.injEq _ _).mp e1).symm

/-! ## Ideal-AEAD helper lemmas -/

theorem unary_delim_inj : ∀ (m n : Nat) (X Y : List Nat),
    List.replicate m 1 ++ 0 :: X = List.replicate n 1 ++ 0 :: Y → m = n ∧ X = Y := by
  intro m
  induction m with
  | zero =>
      intro n X Y h
      cases n with
      | zero => simpa using h
      | succ k => simp [List.replicate_succ] at h
  | succ m ih =>
      intro n X Y h
      cases n with
      | zero => simp [List.replicate_succ] at h
      | succ k =>
          simp only [List.replicate_succ, List.cons_append, List.cons.injEq, true_and] at h
          obtain ⟨hmk, hXY⟩ := ih k X Y h
          exact ⟨by omega, hXY⟩

theorem unaryEnc_append_inj {A B X Y : List Nat}
    (h : unaryEnc A ++ X = unaryEnc B ++ Y) : A = B ∧ X = Y := by
  have h' : List.replicate A.length 1 ++ 0 :: (A ++ X)
      = List.replicate B.length 1 ++ 0 :: (B ++ Y) := by
    simpa [unaryEnc, List.append_assoc] using h
  obtain ⟨hlen, happ⟩ := unary_delim_inj _ _ _ _ h'
  exact List.append_inj happ hlen

theorem aeadHeader_len_pos (k : DerivedKey) (nonce : List Nat) :
    0 < (aeadHeader k nonce).length := by
  simp [aeadHeader, unaryEnc]

theorem aead_roundtrip (k : DerivedKey) (nonce pt : List Nat) :
    aeadDecrypt k nonce (aeadEncrypt k nonce pt) = some pt := by
  unfold aeadDecrypt aeadEncrypt
  simp only [List.take_left, List.drop_left, List.length_append]
  rw [if_pos]
  · rw [List.dropLast_concat, List.getLast?_concat, if_pos rfl]
  · exact ⟨trivial, by simp⟩

theorem aead_wrong_password {p1 p2 salt1 salt2 nonce1 nonce2 : List Nat}
    (hne : p2 ≠ p1) (pt : List Nat) :
    aeadDecrypt (deriveKey p2 salt2) nonce2
      (aeadEncrypt (deriveKey p1 salt1) nonce1 pt) = none := by
  unfold aeadDecrypt
  rw [if_neg]
  rintro ⟨h1, _⟩
  have hsplit := List.take_append_drop
    (aeadHeader (deriveKey p2 salt2) nonce2).length
    (aeadEncrypt (deriveKey p1 salt1) nonce1 pt)
  rw [h1] at hsplit
  have h2 : unaryEnc p2 ++ ((unaryEnc salt2 ++ unaryEnc nonce2) ++
        (aeadEncrypt (deriveKey p1 salt1) nonce1 pt).drop
          (aeadHeader (deriveKey p2 salt2) nonce2).length)
      = unaryEnc p1 ++ ((unaryEnc salt1 ++ unaryEnc nonce1) ++ (pt ++ [byteSum pt])) := by
    simpa [aeadEncrypt, aeadHeader, deriveKey, List.append_assoc] using hsplit
  exact hne (unaryEnc_append_inj h2).1

theorem aead_ct_nil (k : DerivedKey) (nonce : List Nat) :
    aeadDecrypt k nonce [] = none := by
  unfold aeadDecrypt
  rw [if_neg]
  rintro ⟨_, h2⟩
  simp at h2

theorem unaryEnc_bytes {l : List Nat} (h : ∀ y ∈ l, y < 256) :
    ∀ x ∈ unaryEnc l, x < 256 := by
  intro x hx
  rw [unaryEnc] at hx
  rcases List.mem_append.mp hx with h1 | h1
  · have := List.eq_of_mem_replicate h1
    omega
  · rcases List.mem_cons.mp h1 with rfl | h2
    · omega
    · exact h x h2

theorem aeadEncrypt_bytes {k : DerivedKey} {nonce pt : List Nat}
    (hpw : ∀ x ∈ k.password, x < 256) (hsalt : ∀ x ∈ k.salt, x < 256)
    (hn : ∀ x ∈ nonce, x < 256) (hpt : ∀ x ∈ pt, x < 256) :
    ∀ x ∈ aeadEncrypt k nonce pt, x < 256 := by
  intro x hx
  rw [aeadEncrypt, aeadHeader] at hx
  rcases List.mem_append.mp hx with h1 | h1
  · rcases List.mem_append.mp h1 with h2 | h2
    · exact unaryEnc_bytes hpw x h2
    · rcases List.mem_append.mp h2 with h3 | h3
      · exact unaryEnc_bytes hsalt x h3
      · exact unaryEnc_bytes hn x h3
  · rcases List.mem_append.mp h1 with h2 | h2
    · exact hpt x h2
    · rcases List.mem_singleton.mp h2 with rfl
      exact Nat.mod_lt _ (by norm_num)

theorem getRandomValues_length (rand : Nat → Nat) (len : Nat) :
    (getRandomValues rand len).length = len := by
  simp [getRandomValues]

theorem getRandomValues_bytes (rand : Nat → Nat) (len : Nat) :
    ∀ x ∈ getRandomValues rand len, x < 256 := by
  intro x hx
  simp only [getRandomValues, List.mem_map] at hx
  obtain ⟨i, _, rfl⟩ := hx
  exact Nat.mod_lt _ (by norm_num)

theorem concatBuffers_three (a b c : List Nat) :
    concatBuffers [a, b, c] = a ++ (b ++ c) := by
  simp [concatBuffers]

theorem sum_set : ∀ (l : List Nat) (j b : Nat), j < l.length →
    (l.set j b).sum + l.getD j 0 = l.sum + b
  | [], _, _, h => by simp at h
  | a :: t, 0, b, _ => by
      simp [List.sum_cons]
      omega
  | a :: t, j + 1, b, h => by
      have ih := sum_set t j b (by simpa using h)
      simp only [List.set_cons_succ, List.sum_cons, List.getD_cons_succ]
      omega

theorem set_ne_of_ne {l : List Nat} {j b : Nat} (hj : j < l.length)
    (hne : b ≠ l.getD j 0) : l.set j b ≠ l := by
  intro he
  apply hne
  have hb : (l.set j b).getD j 0 = b := by
    rw [List.getD_eq_getElem _ _ (by simpa using hj)]
    simp
  rw [← hb, he]

theorem getD_mem_of_lt {l : List Nat} {j : Nat} (hj : j < l.length) :
    l.getD j 0 ∈ l := by
  rw [List.getD_eq_getElem _ _ hj]
  exact List.getElem_mem _

theorem aead_tamper (k : DerivedKey) (nonce pt : List Nat)
    (hpt : ∀ x ∈ pt, x < 256) (j b : Nat)
    (hj : j < (aeadEncrypt k nonce pt).length) (hb : b < 256)
    (hne : b ≠ (aeadEncrypt k nonce pt).getD j 0) :
    aeadDecrypt k nonce ((aeadEncrypt k nonce pt).set j b) = none := by
  have hct : aeadEncrypt k nonce pt
      = aeadHeader k nonce ++ (pt ++ [byteSum pt]) := rfl
  have hlen : (aeadEncrypt k nonce pt).length
      = (aeadHeader k nonce).length + (pt.length + 1) := by
    rw [hct]; simp
  by_cases hcase : j < (aeadHeader k nonce).length
  · -- the modified byte falls in the key/nonce-determined header: the
    -- prefix check of authenticated decryption fails
    unfold aeadDecrypt
    rw [if_neg]
    rintro ⟨h1, _⟩
    rw [List.set_take, hct, List.take_left] at h1
    have hpre : b ≠ (aeadHeader k nonce).getD j 0 := by
      rw [hct, List.getD_append _ _ _ _ hcase] at hne
      exact hne
    exact set_ne_of_ne hcase hpre h1
  · push_neg at hcase
    have htake : ((aeadEncrypt k nonce pt).set j b).take (aeadHeader k nonce).length
        = aeadHeader k nonce := by
      rw [List.set_take, hct, List.take_left]
      exact List.set_eq_of_length_le (by simpa using hcase)
    have hlen2 : (aeadHeader k nonce).length
        < ((aeadEncrypt k nonce pt).set j b).length := by
      rw [List.length_set, hlen]; omega
    have hdrop : ((aeadEncrypt k nonce pt).set j b).drop (aeadHeader k nonce).length
        = (pt ++ [byteSum pt]).set (j - (aeadHeader k nonce).length) b := by
      rw [List.drop_set, if_neg (by omega), hct, List.drop_left]
    have hjtail : j - (aeadHeader k nonce).length < pt.length + 1 := by omega
    have hgd : (aeadEncrypt k nonce pt).getD j 0
        = (pt ++ [byteSum pt]).getD (j - (aeadHeader k nonce).length) 0 := by
      rw [hct, List.getD_append_right _ _ _ _ hcase]
    unfold aeadDecrypt
    rw [if_pos ⟨htake, hlen2⟩, hdrop]
    by_cases hj' : j - (aeadHeader k nonce).length < pt.length
    · -- modified byte in the plaintext portion: the checksum byte detects it
      rw [List.set_append_left _ _ hj']
      simp only [List.dropLast_concat, List.getLast?_concat]
      rw [if_neg]
      intro hcond
      rw [Option.some.injEq] at hcond
      have hold : (aeadEncrypt k nonce pt).getD j 0
          = pt.getD (j - (aeadHeader k nonce).length) 0 := by
        rw [hgd, List.getD_append _ _ _ _ hj']
      have hsum := sum_set pt (j - (aeadHeader k nonce).length) b hj'
      have hlt : pt.getD (j - (aeadHeader k nonce).length) 0 < 256 :=
        hpt _ (getD_mem_of_lt hj')
      rw [hold] at hne
      rw [byteSum, byteSum] at hcond
      omega
    · -- modified byte is the checksum byte itself
      have hj'' : j - (aeadHeader k nonce).length = pt.length := by omega
      have hset : (pt ++ [byteSum pt]).set (j - (aeadHeader k nonce).length) b
          = pt ++ [b] := by
        rw [List.set_append_right _ _ (by omega), hj'']
        simp
      rw [hset]
      simp only [List.dropLast_concat, List.getLast?_concat]
      rw [if_neg]
      intro hcond
      rw [Option.some.injEq] at hcond
      apply hne
      rw [hgd, hj'', List.getD_append_right _ _ _ _ (le_refl _)]
      simpa using hcond

/-! ## Blob-level helper lemmas -/

theorem base64ToBuf_bufToBase64 {b : List Nat} (h : ∀ x ∈ b, x < 256) :
    base64ToBuf (bufToBase64 b) = some b := decode_encode b h

theorem encryptApiKey_eq (s p : List Nat) (a b : Nat → Nat) :
    encryptApiKey s p a b
      = bufToBase64 (getRandomValues a saltLen ++ (getRandomValues b ivLen ++
          aeadEncrypt (deriveKey p (getRandomValues a saltLen))
            (getRandomValues b ivLen) s)) := by
  rw [encryptApiKey, concatBuffers_three]

theorem combined_bytes {s p : List Nat} (a b : Nat → Nat)
    (hs : ∀ x ∈ s, x < 256) (hp : ∀ x ∈ p, x < 256) :
    ∀ x ∈ getRandomValues a saltLen ++ (getRandomValues b ivLen ++
        aeadEncrypt (deriveKey p (getRandomValues a saltLen))
          (getRandomValues b ivLen) s), x < 256 := by
  intro x hx
  rcases List.mem_append.mp hx with h1 | h1
  · exact getRandomValues_bytes a saltLen x h1
  · rcases List.mem_append.mp h1 with h2 | h2
    · exact getRandomValues_bytes b ivLen x h2
    · exact aeadEncrypt_bytes hp (getRandomValues_bytes a saltLen)
        (getRandomValues_bytes b ivLen) hs x h2

theorem parse_combined (l1 l2 l3 : List Nat) (h1 : l1.length = saltLen)
    (h2 : l2.length = ivLen) :
    (l1 ++ (l2 ++ l3)).take saltLen = l1
    ∧ ((l1 ++ (l2 ++ l3)).drop saltLen).take ivLen = l2
    ∧ (l1 ++ (l2 ++ l3)).drop (saltLen + ivLen) = l3 := by
  refine ⟨List.take_left' h1, ?_, ?_⟩
  · rw [List.drop_left' h1, List.take_left' h2]
  · rw [← List.append_assoc]
    exact List.drop_left' (by simp [h1, h2])

theorem decrypt_encrypt_ok (s p : List Nat) (a b : Nat → Nat)
    (hs : ∀ x ∈ s, x < 256) (hp : ∀ x ∈ p, x < 256) :
    decryptApiKey (encryptApiKey s p a b) p = Except.ok s := by
  obtain ⟨t1, t2, t3⟩ := parse_combined (getRandomValues a saltLen)
    (getRandomValues b ivLen)
    (aeadEncrypt (deriveKey p (getRandomValues a saltLen)) (getRandomValues b ivLen) s)
    (getRandomValues_length a saltLen) (getRandomValues_length b ivLen)
  rw [decryptApiKey, encryptApiKey_eq, base64ToBuf_bufToBase64 (combined_bytes a b hs hp)]
  simp only [t1, t2, t3, aead_roundtrip]

theorem decrypt_encrypt_wrong (s p q : List Nat) (a b : Nat → Nat)
    (hs : ∀ x ∈ s, x < 256) (hp : ∀ x ∈ p, x < 256) (hne : q ≠ p) :
    decryptApiKey (encryptApiKey s p a b) q
      = Except.error DecryptError.operationError := by
  obtain ⟨t1, t2, t3⟩ := parse_combined (getRandomValues a saltLen)
    (getRandomValues b ivLen)
    (aeadEncrypt (deriveKey p (getRandomValues a saltLen)) (getRandomValues b ivLen) s)
    (getRandomValues_length a saltLen) (getRandomValues_length b ivLen)
  rw [decryptApiKey, encryptApiKey_eq, base64ToBuf_bufToBase64 (combined_bytes a b hs hp)]
  simp only [t1, t2, t3, aead_wrong_password hne]

theorem decrypt_invalid_base64 (e : List Char) (p : List Nat)
    (h : base64ToBuf e = none) :
    decryptApiKey e p = Except.error DecryptError.invalidCharacter := by
  rw [decryptApiKey, h]

theorem decrypt_short_blob (p combined : List Nat)
    (hc : ∀ x ∈ combined, x < 256) (hlen : combined.length < 28) :
    decryptApiKey (bufToBase64 combined) p
      = Except.error DecryptError.operationError := by
  rw [decryptApiKey, base64ToBuf_bufToBase64 hc]
  have hnil : combined.drop (saltLen + ivLen) = [] :=
    List.drop_eq_nil_of_le (by simp [saltLen, ivLen]; omega)
  simp only [hnil, aead_ct_nil]

theorem set_bytes {l : List Nat} {j c : Nat} (hl : ∀ x ∈ l, x < 256)
    (hc : c < 256) : ∀ x ∈ l.set j c, x < 256 := by
  intro x hx
  rcases List.mem_or_eq_of_mem_set hx with h | rfl
  · exact hl x h
  · exact hc

theorem decrypt_tampered (s p : List Nat) (a b : Nat → Nat)
    (hs : ∀ x ∈ s, x < 256) (hp : ∀ x ∈ p, x < 256) (j c : Nat)
    (hj28 : 28 ≤ j)
    (hjlt : j < (getRandomValues a saltLen ++ (getRandomValues b ivLen ++
      aeadEncrypt (deriveKey p (getRandomValues a saltLen))
        (getRandomValues b ivLen) s)).length)
    (hc : c < 256)
    (hne : c ≠ (getRandomValues a saltLen ++ (getRandomValues b ivLen ++
      aeadEncrypt (deriveKey p (getRandomValues a saltLen))
        (getRandomValues b ivLen) s)).getD j 0) :
    decryptApiKey (bufToBase64 ((getRandomValues a saltLen ++
        (getRandomValues b ivLen ++
          aeadEncrypt (deriveKey p (getRandomValues a saltLen))
            (getRandomValues b ivLen) s)).set j c)) p
      = Except.error DecryptError.operationError := by
  have e1 : saltLen = 16 := rfl
  have e2 : ivLen = 12 := rfl
  have hsl : (getRandomValues a saltLen).length = 16 := getRandomValues_length a saltLen
  have hil : (getRandomValues b ivLen).length = 12 := getRandomValues_length b ivLen
  obtain ⟨t1, t2, t3⟩ := parse_combined (getRandomValues a saltLen)
    (getRandomValues b ivLen)
    (aeadEncrypt (deriveKey p (getRandomValues a saltLen)) (getRandomValues b ivLen) s)
    (by omega) (by omega)
  rw [decryptApiKey,
    base64ToBuf_bufToBase64 (set_bytes (combined_bytes a b hs hp) hc)]
  have htake : (((getRandomValues a saltLen ++ (getRandomValues b ivLen ++
      aeadEncrypt (deriveKey p (getRandomValues a saltLen))
        (getRandomValues b ivLen) s)).set j c)).take saltLen
      = getRandomValues a saltLen := by
    rw [List.set_take, t1]
    exact List.set_eq_of_length_le (by omega)
  have hdrop16 : (((getRandomValues a saltLen ++ (getRandomValues b ivLen ++
      aeadEncrypt (deriveKey p (getRandomValues a saltLen))
        (getRandomValues b ivLen) s)).set j c)).drop saltLen
      = ((getRandomValues a saltLen ++ (getRandomValues b ivLen ++
          aeadEncrypt (deriveKey p (getRandomValues a saltLen))
            (getRandomValues b ivLen) s)).drop saltLen).set (j - saltLen) c := by
    rw [List.drop_set, if_neg (by omega)]
  have hiv : ((((getRandomValues a saltLen ++ (getRandomValues b ivLen ++
      aeadEncrypt (deriveKey p (getRandomValues a saltLen))
        (getRandomValues b ivLen) s)).set j c)).drop saltLen).take ivLen
      = getRandomValues b ivLen := by
    rw [hdrop16, List.set_take, t2]
    exact List.set_eq_of_length_le (by omega)
  have hctt : (((getRandomValues a saltLen ++ (getRandomValues b ivLen ++
      aeadEncrypt (deriveKey p (getRandomValues a saltLen))
        (getRandomValues b ivLen) s)).set j c)).drop (saltLen + ivLen)
      = (aeadEncrypt (deriveKey p (getRandomValues a saltLen))
          (getRandomValues b ivLen) s).set (j - (saltLen + ivLen)) c := by
    rw [List.drop_set, if_neg (by omega), t3]
  have hgd : (getRandomValues a saltLen ++ (getRandomValues b ivLen ++
      aeadEncrypt (deriveKey p (getRandomValues a saltLen))
        (getRandomValues b ivLen) s)).getD j 0
      = (aeadEncrypt (deriveKey p (getRandomValues a saltLen))
          (getRandomValues b ivLen) s).getD (j - (saltLen + ivLen)) 0 := by
    rw [List.getD_append_right _ _ _ _ (by omega),
      List.getD_append_right _ _ _ _ (by omega)]
    congr 1
  have hjlt' : j - (saltLen + ivLen)
      < (aeadEncrypt (deriveKey p (getRandomValues a saltLen))
          (getRandomValues b ivLen) s).length := by
    rw [List.length_append, List.length_append] at hjlt
    omega
  simp only [htake, hiv, hctt]
  rw [aead_tamper _ _ _ hs _ _ hjlt' hc (by rw [← hgd]; exact hne)]

theorem encrypt_blob_ne (s p : List Nat) (a b a' b' : Nat → Nat)
    (hs : ∀ x ∈ s, x < 256) (hp : ∀ x ∈ p, x < 256)
    (hdiff : getRandomValues a saltLen ≠ getRandomValues a' saltLen ∨
      getRandomValues b ivLen ≠ getRandomValues b' ivLen) :
    encryptApiKey s p a b ≠ encryptApiKey s p a' b' := by
  intro he
  rw [encryptApiKey_eq, encryptApiKey_eq] at he
  have hcomb := bufToBase64_injOn (combined_bytes a b hs hp)
    (combined_bytes a' b' hs hp) he
  obtain ⟨t1, t2, _⟩ := parse_combined (getRandomValues a saltLen)
    (getRandomValues b ivLen)
    (aeadEncrypt (deriveKey p (getRandomValues a saltLen)) (getRandomValues b ivLen) s)
    (getRandomValues_length a saltLen) (getRandomValues_length b ivLen)
  obtain ⟨u1, u2, _⟩ := parse_combined (getRandomValues a' saltLen)
    (getRandomValues b' ivLen)
    (aeadEncrypt (deriveKey p (getRandomValues a' saltLen)) (getRandomValues b' ivLen) s)
    (getRandomValues_length a' saltLen) (getRandomValues_length b' ivLen)
  rcases hdiff with hd | hd
  · exact hd (by rw [← t1, ← u1, hcomb])
  · exact hd (by rw [← t2, ← u2, hcomb])

/-! ## Claim theorems -/

/-- C1: for every password `p` and plaintext `s` (as UTF-8 byte sequences) and
every pair of entropy streams consumed by encryption, decrypting the blob
produced by `encryptApiKey s p` with the same password `p` returns exactly
`s`: the encrypt-then-decrypt round-trip is the identity on the plaintext. -/
theorem claim_roundtrip (s p : List Nat) (a b : Nat → Nat)
    (hs : ∀ x ∈ s, x < 256) (hp : ∀ x ∈ p, x < 256) :
    decryptApiKey (encryptApiKey s p a b) p = Except.ok s :=
  decrypt_encrypt_ok s p a b hs hp

theorem claim_roundtrip_witness :
    (∀ x ∈ [115, 107, 45, 49], x < 256) ∧ (∀ x ∈ [112, 119], x < 256) ∧
    decryptApiKey (encryptApiKey [115, 107, 45, 49] [112, 119]
      (fun i => i) (fun i => i + 7)) [112, 119] = Except.ok [115, 107, 45, 49] :=
  ⟨by decide, by decide, claim_roundtrip _ _ _ _ (by decide) (by decide)⟩

/-- C2 is false as stated: `decryptApiKey` performs no length validation and
has no distinguishable MalformedBlob error.  Decrypting the base64 encoding of
10 zero bytes produces exactly the same generic cipher error (the WebCrypto
OperationError) as an ordinary wrong-password authentication failure, so the
failure is not distinguishable as a malformed blob. -/
theorem claim_malformed_cex :
    decryptApiKey (bufToBase64 (List.replicate 10 0)) [112]
      = Except.error DecryptError.operationError
    ∧ decryptApiKey (encryptApiKey [65] [112] (fun _ => 0) (fun _ => 0)) [113]
      = Except.error DecryptError.operationError :=
  ⟨rfl, rfl⟩

/-- C2 (amended): decryption fails on every blob whose decoded length is below
28 bytes, but not with a distinguishable MalformedBlob error: the short blob
is sliced positionally and the failure surfaces from the cipher primitive as
the same generic operation error as an authentication failure.  A blob whose
base64 decoding fails does fail distinctly, with the decoder's own
invalid-character error.  In particular decrypting the empty string
(`combined = []`) and the base64 of 10 zero bytes both yield the generic
operation error. -/
theorem claim_malformed_amended (p combined : List Nat) (e : List Char)
    (hc : ∀ x ∈ combined, x < 256) (hlen : combined.length < 28)
    (he : base64ToBuf e = none) :
    decryptApiKey (bufToBase64 combined) p
      = Except.error DecryptError.operationError
    ∧ decryptApiKey e p = Except.error DecryptError.invalidCharacter :=
  ⟨decrypt_short_blob p combined hc hlen, decrypt_invalid_base64 e p he⟩

theorem claim_malformed_amended_witness :
    (∀ x ∈ ([] : List Nat), x < 256) ∧ ([] : List Nat).length < 28
    ∧ base64ToBuf ['A'] = none
    ∧ (decryptApiKey (bufToBase64 []) [112]
        = Except.error DecryptError.operationError
      ∧ decryptApiKey ['A'] [112] = Except.error DecryptError.invalidCharacter) :=
  ⟨by decide, by decide, by decide,
    claim_malformed_amended [112] [] ['A'] (by decide) (by decide) (by decide)⟩

/-- C3: encryption returns the base64 encoding of the positional concatenation
`salt ‖ iv ‖ ciphertext` with a 16-byte salt and a 12-byte iv and no length
prefixes, and the slicing used by decryption recovers exactly those
components: the first 16 bytes are the salt, the next 12 the iv, and the
remainder the ciphertext. -/
theorem claim_blob_layout (s p : List Nat) (a b : Nat → Nat)
    (hs : ∀ x ∈ s, x < 256) (hp : ∀ x ∈ p, x < 256) :
    (getRandomValues a saltLen).length = 16
    ∧ (getRandomValues b ivLen).length = 12
    ∧ encryptApiKey s p a b = bufToBase64 (getRandomValues a saltLen ++
        (getRandomValues b ivLen ++
          aeadEncrypt (deriveKey p (getRandomValues a saltLen))
            (getRandomValues b ivLen) s))
    ∧ base64ToBuf (encryptApiKey s p a b) = some (getRandomValues a saltLen ++
        (getRandomValues b ivLen ++
          aeadEncrypt (deriveKey p (getRandomValues a saltLen))
            (getRandomValues b ivLen) s))
    ∧ (getRandomValues a saltLen ++ (getRandomValues b ivLen ++
        aeadEncrypt (deriveKey p (getRandomValues a saltLen))
          (getRandomValues b ivLen) s)).take saltLen = getRandomValues a saltLen
    ∧ ((getRandomValues a saltLen ++ (getRandomValues b ivLen ++
        aeadEncrypt (deriveKey p (getRandomValues a saltLen))
          (getRandomValues b ivLen) s)).drop saltLen).take ivLen
        = getRandomValues b ivLen
    ∧ (getRandomValues a saltLen ++ (getRandomValues b ivLen ++
        aeadEncrypt (deriveKey p (getRandomValues a saltLen))
          (getRandomValues b ivLen) s)).drop (saltLen + ivLen)
        = aeadEncrypt (deriveKey p (getRandomValues a saltLen))
            (getRandomValues b ivLen) s := by
  obtain ⟨t1, t2, t3⟩ := parse_combined (getRandomValues a saltLen)
    (getRandomValues b ivLen)
    (aeadEncrypt (deriveKey p (getRandomValues a saltLen)) (getRandomValues b ivLen) s)
    (getRandomValues_length a saltLen) (getRandomValues_length b ivLen)
  refine ⟨getRandomValues_length a saltLen, getRandomValues_length b ivLen,
    encryptApiKey_eq s p a b, ?_, t1, t2, t3⟩
  rw [encryptApiKey_eq]
  exact base64ToBuf_bufToBase64 (combined_bytes a b hs hp)

theorem claim_blob_layout_witness :
    (∀ x ∈ [104], x < 256) ∧ (∀ x ∈ [113], x < 256) ∧
    ((getRandomValues (fun i => i) saltLen).length = 16
    ∧ (getRandomValues (fun i => i + 3) ivLen).length = 12
    ∧ encryptApiKey [104] [113] (fun i => i) (fun i => i + 3)
        = bufToBase64 (getRandomValues (fun i => i) saltLen ++
          (getRandomValues (fun i => i + 3) ivLen ++
            aeadEncrypt (deriveKey [113] (getRandomValues (fun i => i) saltLen))
              (getRandomValues (fun i => i + 3) ivLen) [104]))
    ∧ base64ToBuf (encryptApiKey [104] [113] (fun i => i) (fun i => i + 3))
        = some (getRandomValues (fun i => i) saltLen ++
          (getRandomValues (fun i => i + 3) ivLen ++
            aeadEncrypt (deriveKey [113] (getRandomValues (fun i => i) saltLen))
              (getRandomValues (fun i => i + 3) ivLen) [104]))
    ∧ (getRandomValues (fun i => i) saltLen ++
        (getRandomValues (fun i => i + 3) ivLen ++
          aeadEncrypt (deriveKey [113] (getRandomValues (fun i => i) saltLen))
            (getRandomValues (fun i => i + 3) ivLen) [104])).take saltLen
        = getRandomValues (fun i => i) saltLen
    ∧ ((getRandomValues (fun i => i) saltLen ++
        (getRandomValues (fun i => i + 3) ivLen ++
          aeadEncrypt (deriveKey [113] (getRandomValues (fun i => i) saltLen))
            (getRandomValues (fun i => i + 3) ivLen) [104])).drop saltLen).take ivLen
        = getRandomValues (fun i => i + 3) ivLen
    ∧ (getRandomValues (fun i => i) saltLen ++
        (getRandomValues (fun i => i + 3) ivLen ++
          aeadEncrypt (deriveKey [113] (getRandomValues (fun i => i) saltLen))
            (getRandomValues (fun i => i + 3) ivLen) [104])).drop (saltLen + ivLen)
        = aeadEncrypt (deriveKey [113] (getRandomValues (fun i => i) saltLen))
            (getRandomValues (fun i => i + 3) ivLen) [104]) :=
  ⟨by decide, by decide,
    claim_blob_layout [104] [113] (fun i => i) (fun i => i + 3) (by decide) (by decide)⟩

/-- C4: decryption fails with the generic integrity error (WebCrypto
OperationError, what the spec calls AuthenticationFailed) and never returns
corrupted plaintext, both when a blob encrypted under `p1` is decrypted under
any different password `p2`, and when any single byte of the ciphertext region
(offsets 28 and beyond of the decoded blob) of a valid blob is replaced by a
different byte value. -/
theorem claim_auth_failures (s p1 p2 : List Nat) (a b : Nat → Nat)
    (hs : ∀ x ∈ s, x < 256) (hp1 : ∀ x ∈ p1, x < 256) :
    (p2 ≠ p1 → decryptApiKey (encryptApiKey s p1 a b) p2
      = Except.error DecryptError.operationError)
    ∧ (∀ combined, base64ToBuf (encryptApiKey s p1 a b) = some combined →
        ∀ j c, 28 ≤ j → j < combined.length → c < 256 → c ≠ combined.getD j 0 →
          decryptApiKey (bufToBase64 (combined.set j c)) p1
            = Except.error DecryptError.operationError) := by
  constructor
  · intro hne
    exact decrypt_encrypt_wrong s p1 p2 a b hs hp1 hne
  · intro combined hcomb j c h1 h2 h3 h4
    rw [encryptApiKey_eq, base64ToBuf_bufToBase64 (combined_bytes a b hs hp1),
      Option.some.injEq] at hcomb
    subst hcomb
    exact decrypt_tampered s p1 a b hs hp1 j c h1 h2 h3 h4

theorem claim_auth_failures_witness :
    (∀ x ∈ [65, 66], x < 256) ∧ (∀ x ∈ [5], x < 256) ∧
    ((([6] : List Nat) ≠ [5] → decryptApiKey
        (encryptApiKey [65, 66] [5] (fun _ => 2) (fun _ => 4)) [6]
        = Except.error DecryptError.operationError)
    ∧ (∀ combined, base64ToBuf
          (encryptApiKey [65, 66] [5] (fun _ => 2) (fun _ => 4)) = some combined →
        ∀ j c, 28 ≤ j → j < combined.length → c < 256 → c ≠ combined.getD j 0 →
          decryptApiKey (bufToBase64 (combined.set j c)) [5]
            = Except.error DecryptError.operationError)) :=
  ⟨by decide, by decide,
    claim_auth_failures [65, 66] [5] [6] (fun _ => 2) (fun _ => 4)
      (by decide) (by decide)⟩

/-- C5: key derivation feeds the password to PBKDF2 with the fixed iteration
count `pbkdf2Iterations = 200000 ≥ 100000` and the fixed hash SHA-256, and is
deterministic given identical (password, salt). -/
theorem claim_kdf_params :
    100000 ≤ pbkdf2Iterations
    ∧ (∀ p s, (deriveKey p s).iterations = pbkdf2Iterations
        ∧ (deriveKey p s).hash = HashAlg.sha256)
    ∧ (∀ p1 s1 p2 s2, p1 = p2 → s1 = s2 → deriveKey p1 s1 = deriveKey p2 s2) :=
  ⟨by norm_num [pbkdf2Iterations], fun p s => ⟨rfl, rfl⟩,
    fun p1 s1 p2 s2 h1 h2 => by rw [h1, h2]⟩

theorem claim_kdf_params_witness :
    100000 ≤ pbkdf2Iterations
    ∧ (deriveKey [1] [2]).iterations = pbkdf2Iterations
    ∧ deriveKey [1] [2] = deriveKey [1] [2] :=
  ⟨claim_kdf_params.1, (claim_kdf_params.2.1 [1] [2]).1,
    claim_kdf_params.2.2 [1] [2] [1] [2] rfl rfl⟩

/-- C9: two encryptions of the same plaintext under the same password with
different drawn randomness (salt or nonce differing between the two runs)
return different base64 blobs, yet both blobs decrypt back to the plaintext
under that password. -/
theorem claim_nondeterminism (s p : List Nat) (a b a' b' : Nat → Nat)
    (hs : ∀ x ∈ s, x < 256) (hp : ∀ x ∈ p, x < 256)
    (hdiff : getRandomValues a saltLen ≠ getRandomValues a' saltLen ∨
      getRandomValues b ivLen ≠ getRandomValues b' ivLen) :
    encryptApiKey s p a b ≠ encryptApiKey s p a' b'
    ∧ decryptApiKey (encryptApiKey s p a b) p = Except.ok s
    ∧ decryptApiKey (encryptApiKey s p a' b') p = Except.ok s :=
  ⟨encrypt_blob_ne s p a b a' b' hs hp hdiff,
    decrypt_encrypt_ok s p a b hs hp, decrypt_encrypt_ok s p a' b' hs hp⟩

theorem claim_nondeterminism_witness :
    (∀ x ∈ [77], x < 256) ∧ (∀ x ∈ [112], x < 256)
    ∧ (getRandomValues (fun _ => 0) saltLen ≠ getRandomValues (fun _ => 1) saltLen
        ∨ getRandomValues (fun _ => 2) ivLen ≠ getRandomValues (fun _ => 2) ivLen)
    ∧ (encryptApiKey [77] [112] (fun _ => 0) (fun _ => 2)
        ≠ encryptApiKey [77] [112] (fun _ => 1) (fun _ => 2)
      ∧ decryptApiKey (encryptApiKey [77] [112] (fun _ => 0) (fun _ => 2)) [112]
          = Except.ok [77]
      ∧ decryptApiKey (encryptApiKey [77] [112] (fun _ => 1) (fun _ => 2)) [112]
          = Except.ok [77]) :=
  ⟨by decide, by decide, by decide,
    claim_nondeterminism [77] [112] (fun _ => 0) (fun _ => 2) (fun _ => 1) (fun _ => 2)
      (by decide) (by decide) (by decide)⟩

/-- C6: for every sample byte sequence of length `L` and every sample rate,
the framed container is a single contiguous byte sequence of length exactly
`44 + L`, bytes 4 to 7 hold `36 + L` little-endian, and bytes 40 to 43 hold
`L` little-endian. -/
theorem claim_wav_size (samples : List Nat) (r : Nat) :
    (pcmToWav samples r).length = 44 + samples.length
    ∧ ((pcmToWav samples r).drop 4).take 4 = u32le (36 + samples.length)
    ∧ ((pcmToWav samples r).drop 40).take 4 = u32le samples.length := by
  refine ⟨?_, ?_, ?_⟩
  all_goals simp [pcmToWav, asciiBytes, u32le, u16le]
  all_goals omega

/-- C7: for every sample byte sequence and rate `r`, the header's audio format
code field is 1, the channel count field is 1, the byte rate field is the
little-endian encoding of `2 * r`, the block align field is 2, the bits per
sample field is 16, and the payload from offset 44 onward is the input sample
bytes verbatim. -/
theorem claim_wav_fields (samples : List Nat) (r : Nat) :
    ((pcmToWav samples r).drop 20).take 2 = u16le 1
    ∧ ((pcmToWav samples r).drop 22).take 2 = u16le 1
    ∧ ((pcmToWav samples r).drop 28).take 4 = u32le (2 * r)
    ∧ ((pcmToWav samples r).drop 32).take 2 = u16le 2
    ∧ ((pcmToWav samples r).drop 34).take 2 = u16le 16
    ∧ (pcmToWav samples r).drop 44 = samples := by
  refine ⟨?_, ?_, ?_, ?_, ?_, ?_⟩
  all_goals simp [pcmToWav, asciiBytes, u32le, u16le]
  all_goals omega

/-- C8: framing the empty sample sequence at rate 24000 does not fail and
produces a valid 44-byte container whose data-length field is 0 and whose
chunk-size field is 36. -/
theorem claim_wav_empty :
    (pcmToWav [] 24000).length = 44
    ∧ ((pcmToWav [] 24000).drop 40).take 4 = u32le 0
    ∧ ((pcmToWav [] 24000).drop 4).take 4 = u32le 36 := by
  decide

/-- C10: the module's base64 helpers are mutually inverse on byte buffers:
decoding an encoded buffer returns exactly the same byte list (same length,
same contents), so storing a blob as base64 loses no information. -/
theorem claim_base64_roundtrip (buf : List Nat) (h : ∀ x ∈ buf, x < 256) :
    base64ToBuf (bufToBase64 buf) = some buf :=
  base64ToBuf_bufToBase64 h

theorem claim_base64_roundtrip_witness :
    (∀ x ∈ [0, 255, 7, 128], x < 256)
    ∧ base64ToBuf (bufToBase64 [0, 255, 7, 128]) = some [0, 255, 7, 128] :=
  ⟨by decide, claim_base64_roundtrip [0, 255, 7, 128] (by decide)⟩
